/-
  Verification of simarduboy (src/main.cpp) against its natural-language
  specification.

  The C++ program is shallowly embedded below.  Machine integers are
  modelled as `Nat` with explicit `% 2 ^ w` where the C code can overflow
  (the sample store is `uint16_t`, the two ring-buffer cursors are
  `uint16_t`).  The 1024-entry global array `samples` is modelled as a
  total store `Nat → Nat`; the program only ever reads and writes indices
  below 1024 (reads beyond would be undefined behaviour in C, and the
  in-bounds facts are proved explicitly).
-/
import Mathlib

namespace Simarduboy

/-! ## Audio pipeline: globals and the two ring-buffer operations

    From src/main.cpp:

      static const uint16_t nsamples = 1024;
      static const uint32_t audio_frequency = 8000;
      static uint16_t samples[nsamples];
      static uint16_t cur_sample = 0;
      static uint16_t out_sample = 0;
      static avr_cycle_count_t next = 16000000 / audio_frequency;
-/

def nsamples : Nat := 1024

def audio_frequency : Nat := 8000

/-- The period `next = 16000000 / audio_frequency`: the fixed virtual-time period of the
    speaker timer in emulated cycles. -/
def next : Nat := 16000000 / audio_frequency

/-- The mutable audio globals of main.cpp: the sample array (a `uint16_t[1024]`,
    modelled as a total store over `Nat` indices), the producer cursor
    `cur_sample` and the consumer cursor `out_sample` (both `uint16_t`). -/
structure AudioState where
  samples : Nat → Nat
  cur_sample : Nat
  out_sample : Nat

/-- Initial state: zero-initialised static array, both cursors 0. -/
def initAudio : AudioState := ⟨fun _ => 0, 0, 0⟩

/-- The value stored by `samples[cur_sample++] = speaker_value * 0x4000;`:
    the product truncated to the `uint16_t` element type. -/
def sampleOf (speaker_value : Nat) : Nat := (speaker_value * 0x4000) % 65536

/-- One invocation of `speaker_timer` (the state effect):

      samples[cur_sample++] = speaker_value * 0x4000;
      cur_sample %= nsamples;

    `cur_sample++` increments a `uint16_t` (mod 2^16) after the write, and
    then `cur_sample %= nsamples` reduces mod 1024. -/
def speaker_timer (speaker_value : Nat) (s : AudioState) : AudioState where
  samples := fun i => if i = s.cur_sample then sampleOf speaker_value else s.samples i
  cur_sample := ((s.cur_sample + 1) % 65536) % nsamples
  out_sample := s.out_sample

/-- The cycle-timer return value: `return when + next;`. -/
def speaker_timer_ret (whenC : Nat) : Nat := whenC + next

/-- One invocation of `audio_callback` with a destination buffer of `len`
    bytes:

      memcpy(stream, samples + out_sample, len);
      out_sample += len / sizeof(*samples);
      out_sample %= nsamples;

    The memcpy copies `len / 2` whole 16-bit samples contiguously from
    `samples + out_sample`, with no wraparound inside the copy; the cursor
    update is a `uint16_t` addition (mod 2^16) followed by `%= nsamples`.
    Returned: the list of samples copied out, and the updated state. -/
def audio_callback (len : Nat) (s : AudioState) : List Nat × AudioState :=
  ((List.range (len / 2)).map (fun i => s.samples (s.out_sample + i)),
   { s with out_sample := ((s.out_sample + len / 2) % 65536) % nsamples })

/-- A run of producer invocations: one `speaker_timer` call per listed
    speaker level, oldest first. -/
def produceRun (levels : List Nat) (s : AudioState) : AudioState :=
  levels.foldl (fun st v => speaker_timer v st) s

/-- A run of consumer invocations: one `audio_callback` call per listed
    byte length, concatenating the copied-out samples. -/
def consumeRun (lens : List Nat) (s : AudioState) : List Nat × AudioState :=
  match lens with
  | [] => ([], s)
  | l :: rest =>
    let p := audio_callback l s
    let q := consumeRun rest p.2
    (p.1 ++ q.1, q.2)

/-! ### Basic producer lemmas -/

theorem produceRun_nil (s : AudioState) : produceRun [] s = s := rfl

theorem produceRun_cons (v : Nat) (vs : List Nat) (s : AudioState) :
    produceRun (v :: vs) s = produceRun vs (speaker_timer v s) := rfl

theorem produceRun_append (vs ws : List Nat) (s : AudioState) :
    produceRun (vs ++ ws) s = produceRun ws (produceRun vs s) :=
  List.foldl_append ..

/-- Producing never touches the read cursor. -/
theorem produceRun_out_sample (vs : List Nat) (s : AudioState) :
    (produceRun vs s).out_sample = s.out_sample := by
  induction vs generalizing s with
  | nil => rfl
  | cons v vs ih => simpa [produceRun_cons, speaker_timer] using ih (speaker_timer v s)

/-- The producer cursor after a run: starting below capacity, it advances by
    one per sample, modulo 1024. -/
theorem produceRun_cur_sample (vs : List Nat) (s : AudioState)
    (h : s.cur_sample < 1024) :
    (produceRun vs s).cur_sample = (s.cur_sample + vs.length) % 1024 := by
  induction vs generalizing s with
  | nil => simpa using (Nat.mod_eq_of_lt h).symm
  | cons v vs ih =>
    rw [produceRun_cons, ih (speaker_timer v s)]
    · have hc : (speaker_timer v s).cur_sample = (s.cur_sample + 1) % 1024 := by
        simp only [speaker_timer, nsamples]
        omega
      rw [hc, List.length_cons, Nat.mod_add_mod]
      ring_nf
    · simp only [speaker_timer, nsamples]
      omega

/-- Closed form for the sample store after producing `vs` from the initial
    state: ring index `i < 1024` holds the most recently produced sample whose
    production index is congruent to `i` mod 1024 (production index
    `vs.length - 1 - ((vs.length - 1 - i) % 1024)`); an index never written
    still holds the zero-initialised value. -/
theorem produceRun_samples (vs : List Nat) :
    ∀ i < 1024, (produceRun vs initAudio).samples i
      = if i < vs.length then
          sampleOf (vs.getD (vs.length - 1 - ((vs.length - 1 - i) % 1024)) 0)
        else 0 := by
  induction vs using List.reverseRecOn with
  | nil =>
    intro i hi
    simp [produceRun, initAudio]
  | append_singleton ws v ih =>
    intro i hi
    have hcur : (produceRun ws initAudio).cur_sample = ws.length % 1024 := by
      simpa [initAudio] using produceRun_cur_sample ws initAudio (by simp [initAudio])
    rw [produceRun_append, produceRun_cons, produceRun_nil]
    simp only [speaker_timer]
    rw [hcur]
    by_cases hi' : i = ws.length % 1024
    · rw [if_pos hi']
      have h1 : i < (ws ++ [v]).length := by
        simp only [List.length_append, List.length_singleton]
        omega
      rw [if_pos h1]
      have h2 : (ws ++ [v]).length - 1 - (((ws ++ [v]).length - 1 - i) % 1024)
          = ws.length := by
        simp only [List.length_append, List.length_singleton]
        omega
      rw [h2, List.getD_append_right ws [v] 0 ws.length (le_refl _)]
      simp
    · rw [if_neg hi', ih i hi]
      by_cases hiL : i < ws.length
      · have h1 : i < (ws ++ [v]).length := by
          simp only [List.length_append, List.length_singleton]
          omega
        rw [if_pos hiL, if_pos h1]
        have hJ : (ws ++ [v]).length - 1 - (((ws ++ [v]).length - 1 - i) % 1024)
            = ws.length - 1 - ((ws.length - 1 - i) % 1024) := by
          simp only [List.length_append, List.length_singleton]
          omega
        have hJlt : ws.length - 1 - ((ws.length - 1 - i) % 1024) < ws.length := by
          omega
        rw [hJ, List.getD_append ws [v] 0 _ hJlt]
      · rw [if_neg hiL]
        rw [if_neg (by simp only [List.length_append, List.length_singleton]; omega)]

/-- Under capacity, the closed form collapses: after producing at most 1024
    samples from the initial state, ring index `i` holds exactly the `i`-th
    produced sample. -/
theorem produceRun_samples_under_cap (vs : List Nat) (hcap : vs.length ≤ 1024) :
    ∀ i < vs.length, (produceRun vs initAudio).samples i = sampleOf (vs.getD i 0) := by
  intro i hi
  rw [produceRun_samples vs i (by omega), if_pos hi]
  congr 1
  congr 1
  omega

/-- A consume never modifies the sample store. -/
theorem audio_callback_samples (len : Nat) (s : AudioState) :
    (audio_callback len s).2.samples = s.samples := rfl

/-- A run of consumes whose sample counts sum to zero copies out nothing. -/
theorem consumeRun_zero (ks : List Nat) (s : AudioState) (h : ks.sum = 0) :
    (consumeRun (ks.map (fun k => 2 * k)) s).1 = [] := by
  induction ks generalizing s with
  | nil => simp [consumeRun]
  | cons k rest ih =>
    have hk : k = 0 := by simp only [List.sum_cons] at h; omega
    have hr : rest.sum = 0 := by simp only [List.sum_cons] at h; omega
    subst hk
    simp [consumeRun, audio_callback, ih _ hr]

/-- A run of consumes with sample counts `ks` (byte lengths `2 * k`),
    starting at read cursor `d` with `d + ks.sum ≤ 1024`, copies out the
    contiguous index range `d, d + 1, …, d + ks.sum - 1` of the (unchanged)
    sample store. -/
theorem consumeRun_chunks (ks : List Nat) (s : AudioState) (d : Nat)
    (hd : s.out_sample = d) (hsum : d + ks.sum ≤ 1024) :
    (consumeRun (ks.map (fun k => 2 * k)) s).1
      = (List.range ks.sum).map (fun i => s.samples (d + i)) := by
  induction ks generalizing s d with
  | nil => simp [consumeRun]
  | cons k rest ih =>
    have hcount : 2 * k / 2 = k := by omega
    have hchunk : (audio_callback (2 * k) s).1
        = (List.range k).map (fun i => s.samples (d + i)) := by
      simp [audio_callback, hcount, hd]
    have hsamples : (audio_callback (2 * k) s).2.samples = s.samples := rfl
    have hout : (audio_callback (2 * k) s).2.out_sample
        = ((d + k) % 65536) % 1024 := by
      simp [audio_callback, hcount, hd, nsamples]
    simp only [List.sum_cons] at hsum
    rcases Nat.lt_or_ge (d + k) 1024 with hdk | hdk
    · have hout' : (audio_callback (2 * k) s).2.out_sample = d + k := by
        rw [hout]; omega
      have hrest := ih (audio_callback (2 * k) s).2 (d + k) hout' (by omega)
      rw [hsamples] at hrest
      simp only [List.map_cons, consumeRun, hchunk, hrest]
      rw [List.sum_cons, List.range_add, List.map_append, List.map_map]
      refine congrArg (_ ++ ·) (List.map_congr_left fun i _ => ?_)
      simp [Function.comp, Nat.add_assoc]
    · have hdk' : d + k = 1024 := by omega
      have hr : rest.sum = 0 := by omega
      simp only [List.map_cons, consumeRun, hchunk,
        consumeRun_zero rest _ hr, List.append_nil]
      rw [List.sum_cons, hr]
      simp

/-- C1.  Ring-buffer FIFO under capacity: from the empty initial state
    (both cursors 0), producing `N = levels.length` samples with
    `0 < N ≤ 1024` (one `speaker_timer` call per level) and then consuming
    `N` samples in total (a run of `audio_callback` calls whose sample
    counts sum to `N`) copies out exactly the produced samples, in
    production order. -/
theorem ring_fifo_under_capacity (levels ks : List Nat)
    (hpos : 0 < levels.length) (hcap : levels.length ≤ 1024)
    (hsum : ks.sum = levels.length) :
    (consumeRun (ks.map (fun k => 2 * k)) (produceRun levels initAudio)).1
      = levels.map sampleOf := by
  have hout : (produceRun levels initAudio).out_sample = 0 := by
    simpa [initAudio] using produceRun_out_sample levels initAudio
  rw [consumeRun_chunks ks _ 0 hout (by omega), hsum]
  apply List.ext_getElem (by simp)
  intro n h1 h2
  simp only [List.getElem_map, List.getElem_range, Nat.zero_add]
  rw [produceRun_samples_under_cap levels hcap n (by simpa using h2)]
  rw [List.getD_eq_getElem levels 0 (by simpa using h2)]

/-- Witness for C1 at a concrete input: three samples produced, consumed in
    chunks of two and one. -/
theorem ring_fifo_under_capacity_witness :
    (consumeRun ([2, 1].map (fun k => 2 * k)) (produceRun [1, 0, 1] initAudio)).1
      = [1, 0, 1].map sampleOf :=
  ring_fifo_under_capacity [1, 0, 1] [2, 1] (by decide) (by decide) (by decide)

/-- The samples copied out by a single full-block consume (`len = 2048`
    bytes, i.e. 1024 samples) after producing `1024 + K` samples from the
    initial state: position `i` of the copy is the most recent production
    whose index is congruent to `i` mod 1024. -/
theorem consume_block_after_overrun (levels : List Nat) (K : Nat)
    (hlen : levels.length = 1024 + K) :
    (audio_callback 2048 (produceRun levels initAudio)).1
      = (List.range 1024).map (fun i =>
          sampleOf (levels.getD (1024 + K - 1 - ((1024 + K - 1 - i) % 1024)) 0)) := by
  have hout : (produceRun levels initAudio).out_sample = 0 := by
    simpa [initAudio] using produceRun_out_sample levels initAudio
  have hhalf : (2048 : Nat) / 2 = 1024 := by norm_num
  simp only [audio_callback, hout, hhalf, Nat.zero_add]
  refine List.map_congr_left fun i hi => ?_
  have hi' : i < 1024 := List.mem_range.mp hi
  rw [produceRun_samples levels i hi', if_pos (by omega), hlen]

/-- C2 (amended).  Overrun-overwrite policy: for capacity `C = 1024` and any
    `K > 0`, after producing `C + K` samples with no interleaved consumption
    from the empty initial state, a single consume of `C` samples yields
    exactly the last `C` produced samples (the oldest `K` are lost) — but
    laid out in ring order rather than production order: rotating the
    consumed block left by `K % C` recovers the last `C` produced samples in
    production order. -/
theorem overrun_keeps_last_block (K : Nat) (hK : 0 < K)
    (levels : List Nat) (hlen : levels.length = 1024 + K) :
    ((audio_callback 2048 (produceRun levels initAudio)).1).rotate (K % 1024)
      = (levels.drop K).map sampleOf := by
  rw [consume_block_after_overrun levels K hlen]
  apply List.ext_getElem
  · simp [hlen]
  · intro p h1 h2
    have hp : p < 1024 := by
      simpa [List.length_rotate] using h1
    rw [List.getElem_rotate _ _ _ h1]
    simp only [List.getElem_map, List.getElem_range, List.getElem_drop,
      List.length_map, List.length_range]
    have hJ : 1024 + K - 1 - ((1024 + K - 1 - (p + K % 1024) % 1024) % 1024)
        = K + p := by omega
    rw [hJ, List.getD_eq_getElem levels 0 (by omega)]

/-- The producer levels for the C2 counterexample: `1024 + 1` samples,
    speaker level 1 at production index 1 and level 0 everywhere else. -/
def c2levels : List Nat := 0 :: 1 :: List.replicate 1023 0

set_option maxRecDepth 8192 in
/-- C2 counterexample.  With `K = 1`: after producing 1025 samples
    (level 1 at production index 1, 0 elsewhere), the single 1024-sample
    consume does NOT equal the last 1024 produced samples in production
    order — position 0 of the copy is the newest sample
    (production index 1024, value 0), not the oldest surviving one
    (production index 1, value 0x4000). -/
theorem overrun_production_order_cex :
    ¬ ((audio_callback 2048 (produceRun c2levels initAudio)).1
        = (c2levels.drop 1).map sampleOf) := by
  intro h
  have hlen : c2levels.length = 1024 + 1 := by
    simp only [c2levels, List.length_cons, List.length_replicate]
  rw [consume_block_after_overrun c2levels 1 hlen] at h
  have h0 := congrArg (fun l => l.getD 0 0) h
  exact absurd h0 (by decide)

/-- Witness for C2 (amended) at a concrete input: `K = 1` with the
    counterexample production run. -/
theorem overrun_keeps_last_block_witness :
    ((audio_callback 2048 (produceRun c2levels initAudio)).1).rotate (1 % 1024)
      = (c2levels.drop 1).map sampleOf :=
  overrun_keeps_last_block 1 (by decide) c2levels
    (by simp only [c2levels, List.length_cons, List.length_replicate])

/-- C3 counterexample.  `speaker_timer` at speaker level 1 stores
    `1 * 0x4000 = 0x4000`, not the claimed 16-bit maximum positive value
    `0x7fff`: evaluated at the initial state, the sample written at ring
    index 0 differs from `0x7fff`. -/
theorem sample_amplitude_cex :
    ¬ ((speaker_timer 1 initAudio).samples 0 = 0x7fff) := by
  decide

/-- C3 (amended).  On every invocation, `speaker_timer` reads the current
    speaker level (0 or 1) and appends, at the current write cursor, a
    sample equal to 0 when the level is 0 and to `0x4000` (not `0x7fff`)
    when the level is 1. -/
theorem sample_amplitude_scaling (s : AudioState) :
    (speaker_timer 0 s).samples s.cur_sample = 0
      ∧ (speaker_timer 1 s).samples s.cur_sample = 0x4000 := by
  constructor <;> simp [speaker_timer, sampleOf]

/-! ## The virtual-time cycle scheduler driving `speaker_timer`

    `avr_cycle_timer_register_usec(avr, 125, speaker_timer, nullptr)`
    schedules the first invocation, and each invocation reschedules itself
    by returning `when + next`.  The scheduler below fires the timer at its
    deadline as long as the deadline lies before the end of the simulated
    window, mirroring the emulation core's cycle-timer dispatch. -/

/-- Run the speaker cycle timer from deadline `deadline` until the virtual
    end time `endT` (exclusive), threading the audio state; `lvl k` is the
    speaker level observed by the `k`-th invocation of the run, and the
    second component counts invocations (each appending one sample). -/
def run_speaker_timer (lvl : Nat → Nat) (deadline endT : Nat) (s : AudioState)
    (count : Nat) : AudioState × Nat :=
  if h : deadline < endT then
    run_speaker_timer lvl (speaker_timer_ret deadline) endT
      (speaker_timer (lvl count) s) (count + 1)
  else (s, count)
termination_by endT - deadline
decreasing_by
  simp only [speaker_timer_ret, next, audio_frequency]
  omega

/-- A timer run over a window of exactly `n` periods fires exactly `n`
    times and appends exactly the `n` sampled levels, in order. -/
theorem run_speaker_timer_eq (lvl : Nat → Nat) :
    ∀ (n d c : Nat) (s : AudioState),
    run_speaker_timer lvl d (d + n * next) s c
      = (produceRun ((List.range n).map (fun i => lvl (c + i))) s, c + n) := by
  intro n
  induction n with
  | zero =>
    intro d c s
    rw [run_speaker_timer]
    simp [produceRun]
  | succ n ih =>
    intro d c s
    have hnext : next = 2000 := by norm_num [next, audio_frequency]
    have hlt : d < d + (n + 1) * next := by rw [hnext]; omega
    rw [run_speaker_timer, dif_pos hlt]
    have harith : d + (n + 1) * next = speaker_timer_ret d + n * next := by
      simp only [speaker_timer_ret]
      ring
    rw [harith, ih (speaker_timer_ret d) (c + 1) (speaker_timer (lvl c) s)]
    rw [List.range_succ_eq_map, List.map_cons, List.map_map, produceRun_cons]
    simp only [Prod.mk.injEq, Nat.add_zero]
    constructor
    · congr 1
      refine List.map_congr_left fun i _ => ?_
      simp only [Function.comp_apply]
      congr 1
      omega
    · omega

/-- C5.  Virtual-cadence sample count: the timer period is
    `16000000 / 8000 = 2000` cycles, each invocation returns its deadline
    plus that fixed period, and running the scheduler for `T` emulated
    seconds (`T * 16000000` cycles) from any starting deadline and any
    audio state fires the timer exactly `T * 8000` times, appending exactly
    the `T * 8000` sampled levels to the ring buffer (the resulting state
    equals a produce run of that length). -/
theorem virtual_cadence_sample_count (T d0 : Nat) (lvl : Nat → Nat) (s : AudioState) :
    next = 2000
      ∧ (∀ whenC, speaker_timer_ret whenC = whenC + 2000)
      ∧ run_speaker_timer lvl d0 (d0 + T * 16000000) s 0
          = (produceRun ((List.range (T * 8000)).map lvl) s, T * 8000) := by
  have hnext : next = 2000 := by norm_num [next, audio_frequency]
  refine ⟨hnext, fun whenC => by simp [speaker_timer_ret, hnext], ?_⟩
  have harith : d0 + T * 16000000 = d0 + (T * 8000) * next := by
    rw [hnext]; ring
  rw [harith, run_speaker_timer_eq lvl (T * 8000) d0 0 s]
  simp

/-! ## Consumer-copy safety under the configured block size

    The audio device is opened with `want.samples = nsamples` (1024),
    `AUDIO_S16` and one channel, so SDL hands `audio_callback` a
    destination of exactly 1024 samples = 2048 bytes per call.  An
    interleaving of the two ring operations: each step is either one
    producer invocation (at some speaker level) or one full-block consumer
    invocation. -/

inductive AudioOp where
  | produce (lvl : Nat) : AudioOp
  | consumeBlock : AudioOp

def applyOp (s : AudioState) : AudioOp → AudioState
  | .produce lvl => speaker_timer lvl s
  | .consumeBlock => (audio_callback 2048 s).2

def applyOps (ops : List AudioOp) (s : AudioState) : AudioState :=
  ops.foldl applyOp s

/-- Both operations preserve `out_sample = 0` when consumes are full-block:
    the producer never touches the read cursor, and a 1024-sample consume
    advances it from 0 by 1024 ≡ 0 (mod 1024). -/
theorem applyOps_out_sample (ops : List AudioOp) :
    ∀ s : AudioState, s.out_sample = 0 → (applyOps ops s).out_sample = 0 := by
  induction ops with
  | nil => intro s hs; exact hs
  | cons op rest ih =>
    intro s hs
    refine ih (applyOp s op) ?_
    cases op with
    | produce lvl => simpa [applyOp, speaker_timer] using hs
    | consumeBlock => simp [applyOp, audio_callback, hs, nsamples]

/-- C10.  Implicit consumer-copy safety: the memcpy in `audio_callback`
    reads the contiguous indices `out_sample, …, out_sample + len/2 - 1`
    with no mid-copy wraparound, so (first conjunct) the read stays inside
    the 1024-entry array exactly when `out_sample + len/2 ≤ 1024`; under
    the configured fixed block size of 1024 samples per callback, starting
    from the initial state, (second conjunct) `out_sample = 0` holds before
    and after every callback in any interleaving of producer and full-block
    consumer invocations, and hence (third conjunct) every index read by a
    full-block copy is in bounds. -/
theorem consumer_copy_safety :
    (∀ (s : AudioState) (len : Nat), 0 < len / 2 →
        ((∀ i < len / 2, s.out_sample + i < 1024) ↔ s.out_sample + len / 2 ≤ 1024))
      ∧ (∀ ops : List AudioOp, (applyOps ops initAudio).out_sample = 0)
      ∧ (∀ ops : List AudioOp, ∀ i < 2048 / 2,
          (applyOps ops initAudio).out_sample + i < 1024) := by
  have hinv : ∀ ops : List AudioOp, (applyOps ops initAudio).out_sample = 0 :=
    fun ops => applyOps_out_sample ops initAudio rfl
  refine ⟨fun s len hlen => ⟨fun h => ?_, fun h i hi => by omega⟩, hinv, ?_⟩
  · have := h (len / 2 - 1) (by omega)
    omega
  · intro ops i hi
    rw [hinv ops]
    omega

/-- Witness for C10 at concrete inputs: the bounds equivalence at the
    initial state with a full 2048-byte block, and in-bounds reading after
    a concrete interleaving. -/
theorem consumer_copy_safety_witness :
    ((∀ i < 2048 / 2, initAudio.out_sample + i < 1024)
        ↔ initAudio.out_sample + 2048 / 2 ≤ 1024)
      ∧ (applyOps [AudioOp.produce 1, AudioOp.consumeBlock] initAudio).out_sample + 5
          < 1024 :=
  ⟨consumer_copy_safety.1 initAudio 2048 (by norm_num),
   consumer_copy_safety.2.2 [AudioOp.produce 1, AudioOp.consumeBlock] 5 (by norm_num)⟩

/-! ## Display pipeline: draw_display

    From src/main.cpp:

      uint32_t pixels[128 * 64];
      uint32_t *p = pixels;
      for (int y = 0; y < 64; y++)
        for (int x = 0; x < 128; x++)
          *p++ = (display.vram[y / 8][x] >> (y & 7)) & 1 ? 0xffffff : 0;

    The framebuffer `vram` (8 pages × 128 columns of bytes) is modelled as
    a function from page and column to the byte stored there. -/

/-- The 32-bit value written for display coordinate `(x, y)`:
    `(display.vram[y / 8][x] >> (y & 7)) & 1 ? 0xffffff : 0`. -/
def pixel_value (vram : Nat → Nat → Nat) (x y : Nat) : Nat :=
  if (vram (y / 8) x >>> (y &&& 7)) &&& 1 = 1 then 0xffffff else 0

/-- The flat row-major pixel buffer produced by `draw_display`'s double
    loop (`y` outer over `[0,64)`, `x` inner over `[0,128)`, `*p++` writes). -/
def draw_display (vram : Nat → Nat → Nat) : List Nat :=
  (List.range 64).flatMap (fun y => (List.range 128).map (fun x => pixel_value vram x y))

/-- Pixel `(x, y)` of the produced frame: entry `y * 128 + x` of the flat
    row-major buffer. -/
def pixel (vram : Nat → Nat → Nat) (x y : Nat) : Nat :=
  (draw_display vram).getD (y * 128 + x) 0

/-- Indexing a flat concatenation of `n` constant-length rows. -/
theorem getD_flatMap_rows (g : Nat → List Nat) (len : Nat)
    (hg : ∀ y, (g y).length = len) :
    ∀ (n y x : Nat), y < n → x < len →
      ((List.range n).flatMap g).getD (y * len + x) 0 = (g y).getD x 0 := by
  intro n
  induction n with
  | zero => intro y x hy _; exact absurd hy (Nat.not_lt_zero y)
  | succ n ih =>
    intro y x hy hx
    rw [List.range_succ, List.flatMap_append]
    have hlen : ((List.range n).flatMap g).length = n * len := by
      rw [List.length_flatMap]
      have hmap : List.map (List.length ∘ g) (List.range n)
          = List.map (fun _ => len) (List.range n) :=
        List.map_congr_left fun a _ => hg a
      rw [hmap, List.map_const', List.sum_replicate, List.length_range,
        smul_eq_mul]
    rcases Nat.lt_or_ge y n with hyn | hyn
    · have hidx : y * len + x < n * len := by
        have h1 : y * len + x < (y + 1) * len := by
          rw [Nat.succ_mul]
          omega
        have h2 : (y + 1) * len ≤ n * len := Nat.mul_le_mul_right len (by omega)
        omega
      rw [List.getD_append _ _ _ _ (by rw [hlen]; exact hidx)]
      exact ih y x hyn hx
    · have hy' : y = n := by omega
      subst hy'
      rw [List.getD_append_right _ _ _ _ (by rw [hlen]; omega), hlen,
        Nat.add_sub_cancel_left]
      simp [List.flatMap_cons]

/-- The frame entry at `y * 128 + x` is the loop-body value for `(x, y)`. -/
theorem pixel_eq (vram : Nat → Nat → Nat) (x y : Nat) (hx : x < 128) (hy : y < 64) :
    pixel vram x y = pixel_value vram x y := by
  unfold pixel draw_display
  rw [getD_flatMap_rows _ 128 (fun _ => by simp) 64 y x hy hx]
  rw [List.getD_eq_getElem _ _ (by simpa using hx)]
  simp

/-- The C bit test `(byte >> (y & 7)) & 1` agrees with `testBit (y % 8)`
    for display rows. -/
theorem pixel_value_testBit (vram : Nat → Nat → Nat) (x y : Nat) (hy : y < 64) :
    pixel_value vram x y
      = if (vram (y / 8) x).testBit (y % 8) then 0xffffff else 0 := by
  unfold pixel_value
  have h7 : y &&& 7 = y % 8 := by
    have hall : ∀ z < 64, z &&& 7 = z % 8 := by decide
    exact hall y hy
  rw [h7, Nat.and_one_is_mod, Nat.shiftRight_eq_div_pow]
  simp [Nat.testBit_to_div_mod]

/-- The spec's concrete framebuffer: page 0 holds `0b00000001` at column 0
    and every other byte is 0. -/
def fb0 : Nat → Nat → Nat := fun page col => if page = 0 ∧ col = 0 then 1 else 0

set_option maxRecDepth 8192 in
/-- C4.  Display bitmap-to-pixel conversion: for every framebuffer and all
    `x < 128`, `y < 64`, pixel `(x, y)` of the frame produced by
    `draw_display` is white (`0xffffff`) iff bit `y % 8` of framebuffer
    page `y / 8` at column `x` is 1, and black (0) otherwise; and for the
    framebuffer with page 0 = 1 at column 0 and all other bits 0, pixel
    `(0, 0)` is white and every other pixel is black. -/
theorem display_pixel_conversion :
    (∀ (vram : Nat → Nat → Nat) (x y : Nat), x < 128 → y < 64 →
        pixel vram x y = if (vram (y / 8) x).testBit (y % 8) then 0xffffff else 0)
      ∧ pixel fb0 0 0 = 0xffffff
      ∧ (∀ x y : Nat, x < 128 → y < 64 → ¬(x = 0 ∧ y = 0) → pixel fb0 x y = 0) := by
  have hmain : ∀ (vram : Nat → Nat → Nat) (x y : Nat), x < 128 → y < 64 →
      pixel vram x y = if (vram (y / 8) x).testBit (y % 8) then 0xffffff else 0 :=
    fun vram x y hx hy => (pixel_eq vram x y hx hy).trans (pixel_value_testBit vram x y hy)
  refine ⟨hmain, ?_, ?_⟩
  · rw [hmain fb0 0 0 (by norm_num) (by norm_num)]
    norm_num [fb0]
  · intro x y hx hy hne
    rw [hmain fb0 x y hx hy]
    have hall : ∀ x < 128, ∀ y < 64, ¬(x = 0 ∧ y = 0) →
        (if (fb0 (y / 8) x).testBit (y % 8) then 0xffffff else 0) = 0 := by decide
    exact hall x hx y hy hne

/-- Witness for C4 at a concrete pixel away from the origin. -/
theorem display_pixel_conversion_witness : pixel fb0 3 10 = 0 :=
  display_pixel_conversion.2.2 3 10 (by norm_num) (by norm_num) (by norm_num)

/-! ## Input mapping: the event loop's key handling

    From src/main.cpp: Button enumeration, one IRQ per button wired to its
    port pin, and a switch over `event.key.keysym.scancode` raising the
    matching IRQ to `event.type == SDL_KEYDOWN ? 0 : 1`.  Pin levels are
    modelled as a function from button to level; `avr_raise_irq` is the
    pin-level update. -/

inductive Button where
  | up
  | down
  | left
  | right
  | a
  | b
deriving DecidableEq

/-- SDL2 scancode values of the six handled keys
    (SDL_SCANCODE_UP/DOWN/LEFT/RIGHT/A/S). -/
def SCANCODE_UP : Nat := 82

def SCANCODE_DOWN : Nat := 81

def SCANCODE_LEFT : Nat := 80

def SCANCODE_RIGHT : Nat := 79

def SCANCODE_A : Nat := 4

def SCANCODE_S : Nat := 22

/-- The call `avr_raise_irq(irq[btn], value)`: set one virtual pin's level. -/
def avr_raise_irq (pins : Button → Nat) (btn : Button) (value : Nat) : Button → Nat :=
  fun p => if p = btn then value else pins p

/-- The `SDL_KEYDOWN`/`SDL_KEYUP` case of the event switch:
    `value = keydown ? 0 : 1`, then a switch over the scancode raising the
    bound pin, with `default: break` leaving everything untouched. -/
def handle_key (keydown : Bool) (scancode : Nat) (pins : Button → Nat) : Button → Nat :=
  let value : Nat := if keydown then 0 else 1
  if scancode = SCANCODE_UP then avr_raise_irq pins .up value
  else if scancode = SCANCODE_DOWN then avr_raise_irq pins .down value
  else if scancode = SCANCODE_LEFT then avr_raise_irq pins .left value
  else if scancode = SCANCODE_RIGHT then avr_raise_irq pins .right value
  else if scancode = SCANCODE_A then avr_raise_irq pins .a value
  else if scancode = SCANCODE_S then avr_raise_irq pins .b value
  else pins

/-- The scancode → Button table realised by the switch. -/
def scancode_button (sc : Nat) : Option Button :=
  if sc = SCANCODE_UP then some .up
  else if sc = SCANCODE_DOWN then some .down
  else if sc = SCANCODE_LEFT then some .left
  else if sc = SCANCODE_RIGHT then some .right
  else if sc = SCANCODE_A then some .a
  else if sc = SCANCODE_S then some .b
  else none

/-- C6.  Input mapping: a key-down event on a mapped scancode sets the bound
    pin to level 0 and a key-up event sets it to level 1 (active-low); any
    event on an unmapped scancode leaves all pin levels unchanged. -/
theorem input_mapping :
    (∀ (pins : Button → Nat) (sc : Nat) (btn : Button),
        scancode_button sc = some btn →
          handle_key true sc pins btn = 0 ∧ handle_key false sc pins btn = 1)
      ∧ (∀ (keydown : Bool) (pins : Button → Nat) (sc : Nat),
          scancode_button sc = none → handle_key keydown sc pins = pins) := by
  constructor
  · intro pins sc btn h
    unfold scancode_button at h
    unfold handle_key
    split_ifs at h with h1 h2 h3 h4 h5 h6 <;>
      simp_all [avr_raise_irq, h1]
  · intro keydown pins sc h
    unfold scancode_button at h
    unfold handle_key
    split_ifs at h
    simp_all

/-- Witness for C6 at concrete inputs: the A key (scancode 4) and an
    unmapped scancode (99), starting from all pins at level 1. -/
theorem input_mapping_witness :
    (handle_key true 4 (fun _ => 1) Button.a = 0
        ∧ handle_key false 4 (fun _ => 1) Button.a = 1)
      ∧ handle_key true 99 (fun _ => 1) = (fun _ => 1) :=
  ⟨input_mapping.1 (fun _ => 1) 4 Button.a (by decide),
   input_mapping.2 true (fun _ => 1) 99 (by decide)⟩

/-! ## Cooperative shutdown: the two loops and the running flag

    `static bool running = true;` is polled by both loops.

    The simulation loop `run_core` is modelled against the sequence of
    values the flag poll returns: `flag i` is the value read at the loop's
    `i`-th `while(running)` check; each `true` read is followed by exactly
    one `avr_run` step.  `run_core flag i fuel` returns the total number of
    completed `avr_run` steps at exit (`none` if the fuel bound is reached
    first).

    The render loop is modelled against the per-iteration batches of
    pending SDL events: each iteration first drains its batch (a quit event
    sets `running` to false; key events go through `handle_key`), then
    draws the display, then re-checks `running`.  `event_loop` returns the
    final state and the number of completed iterations. -/

def run_core (flag : Nat → Bool) : Nat → Nat → Option Nat
  | _, 0 => none
  | i, fuel + 1 => if flag i then run_core flag (i + 1) fuel else some i

inductive SDLEvent where
  | quit
  | key (keydown : Bool) (scancode : Nat)
  | other
deriving DecidableEq

structure LoopState where
  running : Bool
  pins : Button → Nat

/-- One case of the render loop's event switch. -/
def handle_event (st : LoopState) : SDLEvent → LoopState
  | .quit => { st with running := false }
  | .key keydown sc => { st with pins := handle_key keydown sc st.pins }
  | .other => st

/-- The inner `while (SDL_PollEvent(&event))` drain. -/
def drain_events (events : List SDLEvent) (st : LoopState) : LoopState :=
  events.foldl handle_event st

/-- The outer `while(running)` render loop over per-iteration event
    batches, counting completed iterations (each iteration also draws the
    display, which does not affect the loop state). -/
def event_loop : List (List SDLEvent) → LoopState → LoopState × Nat
  | [], st => (st, 0)
  | batch :: rest, st =>
    if st.running then
      let p := event_loop rest (drain_events batch st)
      (p.1, p.2 + 1)
    else (st, 0)

/-- The loop `run_core` exits at the first `false` flag read: if the flag reads
    false by check `i + m`, it returns `some k` with `k ≤ i + m` completed
    steps, the exit check read false, and every earlier check read true. -/
theorem run_core_first_false (flag : Nat → Bool) :
    ∀ (m i : Nat), flag (i + m) = false →
      ∃ k, run_core flag i (m + 1) = some k ∧ i ≤ k ∧ k ≤ i + m
        ∧ flag k = false ∧ ∀ j, i ≤ j → j < k → flag j = true := by
  intro m
  induction m with
  | zero =>
    intro i h
    refine ⟨i, ?_, le_refl i, by omega, by simpa using h, fun j h1 h2 => absurd h1 (by omega)⟩
    simp [run_core, show flag i = false by simpa using h]
  | succ m ih =>
    intro i h
    cases hfi : flag i with
    | false =>
      exact ⟨i, by simp [run_core, hfi], le_refl i, by omega, hfi,
        fun j h1 h2 => absurd h1 (by omega)⟩
    | true =>
      obtain ⟨k, hk, hik, hkm, hkf, hall⟩ := ih (i + 1) (by
        have : i + 1 + m = i + (m + 1) := by omega
        rw [this]; exact h)
      refine ⟨k, ?_, by omega, by omega, hkf, fun j h1 h2 => ?_⟩
      · rw [show run_core flag i (m + 1 + 1)
            = if flag i = true then run_core flag (i + 1) (m + 1) else some i from rfl,
          if_pos hfi, hk]
      · rcases Nat.lt_or_ge j (i + 1) with hj | hj
        · have : j = i := by omega
          simpa [this] using hfi
        · exact hall j hj h2

/-- No event can turn the running flag back on. -/
theorem handle_event_running_le (st : LoopState) (e : SDLEvent) :
    (handle_event st e).running = true → st.running = true := by
  cases e <;> simp [handle_event]

/-- A false running flag stays false across an event drain. -/
theorem drain_events_false (events : List SDLEvent) :
    ∀ st : LoopState, st.running = false → (drain_events events st).running = false := by
  induction events with
  | nil => intro st h; simpa [drain_events] using h
  | cons e rest ih =>
    intro st h
    have he : (handle_event st e).running = false := by
      cases e <;> simpa [handle_event] using h
    simp only [drain_events, List.foldl_cons]
    exact ih (handle_event st e) he

/-- Draining a batch that contains a quit event leaves the flag false. -/
theorem drain_events_quit (events : List SDLEvent) :
    ∀ st : LoopState, SDLEvent.quit ∈ events →
      (drain_events events st).running = false := by
  induction events with
  | nil => intro st h; simp at h
  | cons e rest ih =>
    intro st h
    simp only [drain_events, List.foldl_cons]
    rcases List.mem_cons.mp h with he | he
    · subst he
      exact drain_events_false rest (handle_event st .quit) (by simp [handle_event])
    · exact ih (handle_event st e) he

/-- Draining a batch with no quit event leaves the flag as it was. -/
theorem drain_events_no_quit (events : List SDLEvent) :
    ∀ st : LoopState, SDLEvent.quit ∉ events →
      (drain_events events st).running = st.running := by
  induction events with
  | nil => intro st _; rfl
  | cons e rest ih =>
    intro st h
    have he : (handle_event st e).running = st.running := by
      cases e with
      | quit => exact absurd (List.mem_cons_self _ _) h
      | key keydown sc => rfl
      | other => rfl
    have hstep : drain_events (e :: rest) st = drain_events rest (handle_event st e) := rfl
    rw [hstep, ih (handle_event st e) (fun hm => h (List.mem_cons_of_mem e hm)), he]

/-- A render loop whose flag is already false exits immediately, performing
    no iteration. -/
theorem event_loop_stopped (batches : List (List SDLEvent)) (st : LoopState)
    (h : st.running = false) : event_loop batches st = (st, 0) := by
  cases batches with
  | nil => rfl
  | cons batch rest => simp [event_loop, h]

/-- The render loop that receives its first quit event in batch `q` runs
    exactly `q + 1` iterations — it finishes the iteration that observed
    the quit (completing the drain and the display draw) and exits at the
    next flag check — and ends with the flag false. -/
theorem event_loop_quit_exits :
    ∀ (batches : List (List SDLEvent)) (q : Nat) (st : LoopState),
      st.running = true → q < batches.length →
      (∀ j < q, SDLEvent.quit ∉ batches.getD j []) →
      SDLEvent.quit ∈ batches.getD q [] →
      (event_loop batches st).2 = q + 1 ∧ (event_loop batches st).1.running = false := by
  intro batches
  induction batches with
  | nil => intro q st _ hq; exact absurd hq (by simp)
  | cons batch rest ih =>
    intro q st hrun hq hnone hquit
    cases q with
    | zero =>
      have hstop : (drain_events batch st).running = false :=
        drain_events_quit batch st (by simpa using hquit)
      simp [event_loop, hrun, event_loop_stopped rest _ hstop, hstop]
    | succ q' =>
      have hbatch : SDLEvent.quit ∉ batch := by
        simpa using hnone 0 (by omega)
      have hrun' : (drain_events batch st).running = true := by
        rw [drain_events_no_quit batch st hbatch]; exact hrun
      have hrec := ih q' (drain_events batch st) hrun' (by simpa using hq)
        (fun j hj => by simpa using hnone (j + 1) (by omega))
        (by simpa using hquit)
      simp only [event_loop, hrun, if_true]
      exact ⟨by rw [hrec.1], hrec.2⟩

/-- C7.  Cooperative shutdown.  First conjunct (simulation loop): once the
    running flag reads false — `flag i` being the value the loop's `i`-th
    `while(running)` check observes — `run_core` terminates at the first
    false read, having completed at most one `avr_run` step per earlier
    true read and none after the flag turned false: if check `m` reads
    false, it exits with `some k`, `k ≤ m` completed steps, the exit check
    read false and every earlier check read true (the flag is checked
    exactly once per iteration).  Second conjunct (render loop): the loop
    that receives its first quit event in batch `q` completes exactly that
    iteration (its event drain and display draw) plus the `q` before it and
    exits with the flag false.  Both loop functions are total, so both
    execution contexts terminate and the final join completes. -/
theorem cooperative_shutdown :
    (∀ (flag : Nat → Bool) (m : Nat), flag m = false →
        ∃ k, run_core flag 0 (m + 1) = some k ∧ k ≤ m
          ∧ flag k = false ∧ ∀ j < k, flag j = true)
      ∧ (∀ (batches : List (List SDLEvent)) (q : Nat) (st : LoopState),
          st.running = true → q < batches.length →
          (∀ j < q, SDLEvent.quit ∉ batches.getD j []) →
          SDLEvent.quit ∈ batches.getD q [] →
          (event_loop batches st).2 = q + 1
            ∧ (event_loop batches st).1.running = false) := by
  constructor
  · intro flag m h
    obtain ⟨k, hk, _, hkm, hkf, hall⟩ :=
      run_core_first_false flag m 0 (by simpa using h)
    exact ⟨k, hk, by omega, hkf, fun j hj => hall j (by omega) hj⟩
  · exact event_loop_quit_exits

/-- Witness for C7 at concrete inputs: a flag that turns false at the third
    check, and a render loop receiving quit in its second batch. -/
theorem cooperative_shutdown_witness :
    (∃ k, run_core (fun n => decide (n < 2)) 0 3 = some k ∧ k ≤ 2
        ∧ (fun n => decide (n < 2)) k = false
        ∧ ∀ j < k, (fun n => decide (n < 2)) j = true)
      ∧ ((event_loop [[SDLEvent.other], [SDLEvent.quit]] ⟨true, fun _ => 1⟩).2 = 2
          ∧ (event_loop [[SDLEvent.other], [SDLEvent.quit]] ⟨true, fun _ => 1⟩).1.running
              = false) :=
  ⟨cooperative_shutdown.1 (fun n => decide (n < 2)) 2 (by decide),
   cooperative_shutdown.2 [[SDLEvent.other], [SDLEvent.quit]] 1 ⟨true, fun _ => 1⟩ rfl
     (by norm_num) (fun j hj => by interval_cases j <;> decide) (by decide)⟩

/-! ## CLI surface and firmware format selection

    From src/main.cpp:

      if (argc <= 1) { std::cerr << "Usage: …"; return 1; }
      …
      if (strstr(argv[1], ".elf")) { elf loader } else { ihex loader }

    Paths are modelled as character lists; `strstr needle hay` is C
    `strstr(hay, needle) != NULL`. -/

/-- C `strstr(hay, needle) != NULL`: does `needle` occur anywhere in
    `hay`?  (An empty needle always matches.) -/
def strstr (needle : List Char) : List Char → Bool
  | [] => needle.isEmpty
  | c :: rest => needle.isPrefixOf (c :: rest) || strstr needle rest

/-- The loader branch taken by main: the ELF loader iff
    `strstr(argv[1], ".elf")` is non-null. -/
def firmware_is_elf (path : List Char) : Bool := strstr ".elf".toList path

/-- Correctness of `strstr`: it decides substring occurrence. -/
theorem strstr_iff (needle : List Char) :
    ∀ hay, strstr needle hay = true ↔ ∃ pre post, hay = pre ++ needle ++ post := by
  intro hay
  induction hay with
  | nil =>
    simp only [strstr, List.isEmpty_iff]
    constructor
    · intro h
      exact ⟨[], [], by simp [h]⟩
    · rintro ⟨pre, post, h⟩
      rcases List.append_eq_nil.mp (List.append_eq_nil.mp h.symm).1 with ⟨-, h2⟩
      exact h2
  | cons c rest ih =>
    simp only [strstr, Bool.or_eq_true, ih, List.isPrefixOf_iff_prefix]
    constructor
    · rintro (⟨t, ht⟩ | ⟨pre, post, h⟩)
      · exact ⟨[], t, by simp [ht]⟩
      · exact ⟨c :: pre, post, by simp [h]⟩
    · rintro ⟨pre, post, h⟩
      cases pre with
      | nil =>
        left
        exact ⟨post, by simpa using h.symm⟩
      | cons p ps =>
        right
        refine ⟨ps, post, ?_⟩
        simpa using (List.cons_eq_cons.mp (by simpa using h)).2

/-- C8 counterexample.  The path `game.elf.hex` does not end in `.elf`,
    yet main selects the ELF loader for it, because the test is substring
    containment (`strstr`), not a suffix check: the claimed equivalence
    "ELF loader chosen iff the name ends in .elf" fails at this input. -/
theorem firmware_suffix_cex :
    ¬ (firmware_is_elf "game.elf.hex".toList = true
        ↔ ".elf".toList.isSuffixOf "game.elf.hex".toList = true) := by
  decide

/-- C8 (amended).  Firmware format selection: a path is loaded as an ELF
    image exactly when its name CONTAINS ".elf" as a substring (anywhere,
    not only as a suffix); otherwise it is loaded as an Intel-hex image. -/
theorem firmware_format_selection (path : List Char) :
    firmware_is_elf path = true
      ↔ ∃ pre post, path = pre ++ ".elf".toList ++ post :=
  strstr_iff ".elf".toList path

/-- Witness for C8 (amended) at a concrete path. -/
theorem firmware_format_selection_witness :
    firmware_is_elf "game.elf".toList = true :=
  (firmware_format_selection "game.elf".toList).mpr
    ⟨"game".toList, [], by decide⟩

/-- Outcome of main's argument check, before any initialization runs. -/
inductive MainOutcome where
  | usageError (code : Nat)
  | proceed (firmware : List Char)
deriving DecidableEq

/-- The top of `main`:

      if (argc <= 1) { std::cerr << "Usage: …"; return 1; }

    With fewer than two argv entries the process prints the usage line and
    exits with code 1 before touching the emulator, SDL or the firmware;
    otherwise it proceeds to load `argv[1]` (no flag parsing exists). -/
def main_start (argv : List (List Char)) : MainOutcome :=
  if argv.length ≤ 1 then .usageError 1 else .proceed (argv.getD 1 [])

/-- C9.  Usage error: invoked with no firmware-path argument
    (`argc ≤ 1`), main exits with code 1 at the usage check, before any
    initialization; with any path argument present it always proceeds (the
    missing argument is the only usage error and no other flags are
    interpreted). -/
theorem usage_error_exit (argv : List (List Char)) :
    (argv.length ≤ 1 → main_start argv = .usageError 1)
      ∧ (1 < argv.length → main_start argv = .proceed (argv.getD 1 [])) := by
  constructor
  · intro h
    simp [main_start, h]
  · intro h
    simp [main_start, Nat.not_le.mpr h]

/-- Witness for C9: no argument beyond the program name, and a normal
    invocation (including one whose argument looks like a flag). -/
theorem usage_error_exit_witness :
    main_start ["sim".toList] = .usageError 1
      ∧ main_start ["sim".toList, "-h".toList] = .proceed "-h".toList :=
  ⟨(usage_error_exit ["sim".toList]).1 (by norm_num),
   (usage_error_exit ["sim".toList, "-h".toList]).2 (by norm_num)⟩

end Simarduboy
